import Mathlib

/-!
Design-Patterns: a verification development.

Shallow embedding of three programs of the repository:

* `src/Creational_Patterns/AbstractFactory.cpp` (namespace `AbstractFactoryCpp`),
* `src/Structural_Patterns/Adapter.cpp` (namespace `AdapterCpp`),
* `src/Creational_Patterns/Builder.cpp` (namespace `BuilderCpp`).

Conventions of the embedding.

* A class hierarchy with virtual methods is an inductive type with one constructor per
  concrete class; a virtual call is a `match` on it (dynamic dispatch).
* `std::string` is `String`; every literal of the sources is ASCII, so characters and
  bytes coincide.
* Objects that are mutated through pointers (`Product1`, `ConcreteBuilder1`, `Director`)
  live in an explicit `Memory`; an address is an index into the corresponding store,
  `new` allocates the next index, and a method receives the memory and its `this` address
  and returns `none` when it dereferences an address that holds no object. `delete` is
  not modelled: an address is never reused, so a pointer identifies one object for good.
* Text written to `std::cout` is returned as the new content of the stream.
-/

/-! ## Definitions: `AbstractFactory.cpp` -/

namespace AbstractFactoryCpp

/-- Dynamic type of an object behind `AbstrctProductA *` (the classes have no fields). -/
inductive AbstrctProductA where
  | ConcreteProductA1
  | ConcreteProductA2
  deriving DecidableEq, Repr

/-- Dynamic type of an object behind `AbstrctProductB *`. -/
inductive AbstrctProductB where
  | ConcreteProductB1
  | ConcreteProductB2
  deriving DecidableEq, Repr

/-- Dynamic type of an object behind `AbstractFactory &`. -/
inductive AbstractFactory where
  | ConcreteFactory1
  | ConcreteFactory2
  deriving DecidableEq, Repr

/-- Virtual method `AbstrctProductA::UsefulFuntionA`. -/
def AbstrctProductA.UsefulFuntionA : AbstrctProductA → String
  | .ConcreteProductA1 => "The result of the product A1."
  | .ConcreteProductA2 => "The result of the product A2."

/-- Virtual method `AbstrctProductB::UsefulFuntionB`. -/
def AbstrctProductB.UsefulFuntionB : AbstrctProductB → String
  | .ConcreteProductB1 => "The result of the product B1."
  | .ConcreteProductB2 => "The result of the product B2."

/-- Virtual method `AbstrctProductB::AnotherUsefulFuntionB`: both overrides first call
`collaborator.UsefulFuntionA()` and then concatenate. -/
def AbstrctProductB.AnotherUsefulFuntionB (this : AbstrctProductB)
    (collaborator : AbstrctProductA) : String :=
  match this with
  | .ConcreteProductB1 =>
    let result := collaborator.UsefulFuntionA
    "The result of the B1 collaborating with ( " ++ result ++ " )"
  | .ConcreteProductB2 =>
    let result := collaborator.UsefulFuntionA
    "The result of the B2 collaborating with ( " ++ result ++ " )"

/-- Virtual method `AbstractFactory::CreateProductA`; the methods are `const`, the factory
classes have no fields, and the result is a freshly constructed object. -/
def AbstractFactory.CreateProductA : AbstractFactory → AbstrctProductA
  | .ConcreteFactory1 => .ConcreteProductA1
  | .ConcreteFactory2 => .ConcreteProductA2

/-- Virtual method `AbstractFactory::CreateProductB`. -/
def AbstractFactory.CreateProductB : AbstractFactory → AbstrctProductB
  | .ConcreteFactory1 => .ConcreteProductB1
  | .ConcreteFactory2 => .ConcreteProductB2

/-- The text `ClientCode(factory)` writes to `std::cout` (appended to `cout`). -/
def ClientCode (factory : AbstractFactory) (cout : String) : String :=
  let produdct_a := factory.CreateProductA
  let produdct_b := factory.CreateProductB
  let cout := cout ++ produdct_b.UsefulFuntionB ++ "\n"
  cout ++ produdct_b.AnotherUsefulFuntionB produdct_a ++ "\n"

/-- The variant number `v` of `ConcreteFactory{v}`, as it is spelled in the texts. -/
def variantDigit : AbstractFactory → String
  | .ConcreteFactory1 => "1"
  | .ConcreteFactory2 => "2"

end AbstractFactoryCpp

/-! ## Definitions: `Adapter.cpp` -/

namespace AdapterCpp

/-- Class `Adaptee`: no data members. -/
structure Adaptee where
  deriving DecidableEq, Repr

/-- Method `Adaptee::SpecificRequest`. -/
def Adaptee.SpecificRequest (_this : Adaptee) : String :=
  ".eetpadA eht fo roivaheb laicepS"

/-- The call `std::reverse(s.begin(), s.end())` on a `std::string`. -/
def reverse (s : String) : String :=
  String.mk s.data.reverse

/-- Class `Adapter1 : Target`, holding `Adaptee *adaptee_` (the object it was constructed
over). -/
structure Adapter1 where
  adaptee_ : Adaptee
  deriving DecidableEq, Repr

/-- Class `Adapter2 : Target, Adaptee`: the `Adaptee` is a base-class subobject. -/
structure Adapter2 extends Adaptee where
  deriving DecidableEq, Repr

/-- Method `Target::Request` of the base class. -/
def Target.Request : String :=
  "Target: The default target's behavior."

/-- Method `Adapter1::Request`. -/
def Adapter1.Request (this : Adapter1) : String :=
  let to_reverse := this.adaptee_.SpecificRequest
  let to_reverse := reverse to_reverse
  "Adapter1: (TRANSLATED) " ++ to_reverse

/-- Method `Adapter2::Request`. -/
def Adapter2.Request (this : Adapter2) : String :=
  let to_reverse := this.toAdaptee.SpecificRequest
  let to_reverse := reverse to_reverse
  "Adapter2: (TRANSLATED) " ++ to_reverse

end AdapterCpp

/-! ## Definitions: `Builder.cpp` -/

namespace BuilderCpp

/-- Class `Product1`: the public data member `parts_`. -/
structure Product1 where
  parts_ : List String
  deriving DecidableEq, Repr

/-- Class `ConcreteBuilder1`: the private data member `product_`, an address in the
store of `Product1` objects. -/
structure ConcreteBuilder1 where
  product_ : Nat
  deriving DecidableEq, Repr

/-- Class `Director`: the private data member `builder_`, an address in the store of
builders; `none` is a pointer that was never set (the class has no constructor that
sets it). -/
structure Director where
  builder_ : Option Nat
  deriving DecidableEq, Repr

/-- The heap: one store per class, an address is an index, `new` appends. -/
structure Memory where
  products : List Product1
  builders : List ConcreteBuilder1
  directors : List Director
  deriving DecidableEq, Repr

/-- The heap before any allocation. -/
def Memory.empty : Memory :=
  { products := [], builders := [], directors := [] }

/-- Method `Product1::ListParts` (a `const` method); `cout` is the stream content so far.
`parts_[i]` and `parts_.back()` are defined only on an existing element. -/
def Product1.ListParts (this : Product1) (cout : String) : Option String :=
  let cout := cout ++ "Product parts: "
  let body := (List.range this.parts_.length).foldlM
    (fun (cout : String) (i : Nat) =>
      match this.parts_[i]?, this.parts_.getLast? with
      | some x, some back => if x = back then some (cout ++ x) else some (cout ++ x ++ ", ")
      | _, _ => none)
    cout
  body.map fun cout => cout ++ "\n\n"

/-- The expression `new Product1()`: a fresh object with an empty `parts_`. -/
def Product1.new (m : Memory) : Memory × Nat :=
  ({ m with products := m.products ++ [{ parts_ := [] }] }, m.products.length)

/-- The statement `product_->parts_.push_back(s)` for the product at address `product`. -/
def Product1.push_back (m : Memory) (product : Nat) (s : String) : Option Memory :=
  match m.products[product]? with
  | some p => some { m with products := m.products.set product { parts_ := p.parts_ ++ [s] } }
  | none => none

/-- Method `ConcreteBuilder1::Reset`: `product_ = new Product1();`. -/
def ConcreteBuilder1.Reset (m : Memory) (this : Nat) : Option Memory :=
  match m.builders[this]? with
  | some _ =>
    let (m, p) := Product1.new m
    some { m with builders := m.builders.set this { product_ := p } }
  | none => none

/-- The expression `new ConcreteBuilder1()`: the object is allocated (its `product_` is
not yet meaningful, written `0` here) and the constructor body calls `this->Reset()`. -/
def ConcreteBuilder1.new (m : Memory) : Option (Memory × Nat) :=
  let this := m.builders.length
  let m := { m with builders := m.builders ++ [{ product_ := 0 }] }
  (ConcreteBuilder1.Reset m this).map fun m => (m, this)

/-- Method `ConcreteBuilder1::ProducePartA`. -/
def ConcreteBuilder1.ProducePartA (m : Memory) (this : Nat) : Option Memory :=
  match m.builders[this]? with
  | some b => Product1.push_back m b.product_ "PartA1"
  | none => none

/-- Method `ConcreteBuilder1::ProducePartB`. -/
def ConcreteBuilder1.ProducePartB (m : Memory) (this : Nat) : Option Memory :=
  match m.builders[this]? with
  | some b => Product1.push_back m b.product_ "PartB1"
  | none => none

/-- Method `ConcreteBuilder1::ProducePartC`. -/
def ConcreteBuilder1.ProducePartC (m : Memory) (this : Nat) : Option Memory :=
  match m.builders[this]? with
  | some b => Product1.push_back m b.product_ "PartC1"
  | none => none

/-- Method `ConcreteBuilder1::GetProduct`: returns the memory after the call and the
returned pointer. -/
def ConcreteBuilder1.GetProduct (m : Memory) (this : Nat) : Option (Memory × Nat) :=
  match m.builders[this]? with
  | some b =>
    let result := b.product_
    (ConcreteBuilder1.Reset m this).map fun m => (m, result)
  | none => none

/-- The expression `new Director()`: no constructor sets `builder_`. -/
def Director.new (m : Memory) : Memory × Nat :=
  ({ m with directors := m.directors ++ [{ builder_ := none }] }, m.directors.length)

/-- Method `Director::SetBuilder`: `builder_ = builder;`. -/
def Director.SetBuilder (m : Memory) (this : Nat) (builder : Option Nat) : Option Memory :=
  match m.directors[this]? with
  | some _ => some { m with directors := m.directors.set this { builder_ := builder } }
  | none => none

/-- Method `Director::BuildMinimalViableProduct`; the virtual call `builder_->ProducePartA()`
dispatches to `ConcreteBuilder1`, the only concrete builder of the program. -/
def Director.BuildMinimalViableProduct (m : Memory) (this : Nat) : Option Memory :=
  match m.directors[this]? with
  | some d =>
    match d.builder_ with
    | some builder => ConcreteBuilder1.ProducePartA m builder
    | none => none
  | none => none

/-- Method `Director::BuildFullFraturedProduct`; `builder_` is read anew for each of the
three calls. -/
def Director.BuildFullFraturedProduct (m : Memory) (this : Nat) : Option Memory :=
  match m.directors[this]? with
  | some d =>
    match d.builder_ with
    | some builder =>
      (ConcreteBuilder1.ProducePartA m builder).bind fun m =>
      (ConcreteBuilder1.ProducePartB m builder).bind fun m =>
      ConcreteBuilder1.ProducePartC m builder
    | none => none
  | none => none

/-! ### Observations and call sequences -/

/-- The part list of the product stored at address `product`. -/
def partsAt (m : Memory) (product : Nat) : Option (List String) :=
  (m.products[product]?).map fun p => p.parts_

/-- The pending part list of the builder at address `builder`: the `parts_` of the
product its `product_` points to. It is `none` when there is no such builder or its
`product_` points to no product. -/
def pending (m : Memory) (builder : Nat) : Option (List String) :=
  match m.builders[builder]? with
  | some b => partsAt m b.product_
  | none => none

/-- The three construction steps of the `Builder` interface. -/
inductive Step where
  | ProducePartA
  | ProducePartB
  | ProducePartC
  deriving DecidableEq, Repr

/-- The identifier that a step of `ConcreteBuilder1` appends. -/
def Step.identifier : Step → String
  | .ProducePartA => "PartA1"
  | .ProducePartB => "PartB1"
  | .ProducePartC => "PartC1"

/-- One step call on the builder at address `builder`. -/
def Step.call (m : Memory) (builder : Nat) : Step → Option Memory
  | .ProducePartA => ConcreteBuilder1.ProducePartA m builder
  | .ProducePartB => ConcreteBuilder1.ProducePartB m builder
  | .ProducePartC => ConcreteBuilder1.ProducePartC m builder

/-- A sequence of step calls on one builder, in order. -/
def callSteps (m : Memory) (builder : Nat) : List Step → Option Memory
  | [] => some m
  | s :: rest => (s.call m builder).bind fun m => callSteps m builder rest

/-- A call of the public interface of `ConcreteBuilder1`. -/
inductive Call where
  | step (s : Step)
  | Reset
  | GetProduct
  deriving DecidableEq, Repr

/-- A sequence of calls on one builder, in order; the result carries the pointers that
the `GetProduct` calls returned, in call order. -/
def callAll (m : Memory) (builder : Nat) : List Call → Option (Memory × List Nat)
  | [] => some (m, [])
  | .step s :: rest =>
    (s.call m builder).bind fun m => callAll m builder rest
  | .Reset :: rest =>
    (ConcreteBuilder1.Reset m builder).bind fun m => callAll m builder rest
  | .GetProduct :: rest =>
    (ConcreteBuilder1.GetProduct m builder).bind fun (m, p) =>
    (callAll m builder rest).map fun (m, ps) => (m, p :: ps)

/-- The two recipes of the `Director`. -/
inductive Recipe where
  | BuildMinimalViableProduct
  | BuildFullFraturedProduct
  deriving DecidableEq, Repr

/-- One recipe call on the director at address `director`. -/
def Recipe.call (m : Memory) (director : Nat) : Recipe → Option Memory
  | .BuildMinimalViableProduct => Director.BuildMinimalViableProduct m director
  | .BuildFullFraturedProduct => Director.BuildFullFraturedProduct m director

/-- A sequence of recipe calls on one director, in order. -/
def callRecipes (m : Memory) (director : Nat) : List Recipe → Option Memory
  | [] => some m
  | r :: rest => (r.call m director).bind fun m => callRecipes m director rest

/-- The identifiers a recipe makes `ConcreteBuilder1` append. -/
def Recipe.identifiers : Recipe → List String
  | .BuildMinimalViableProduct => ["PartA1"]
  | .BuildFullFraturedProduct => ["PartA1", "PartB1", "PartC1"]

/-- The text of an ordered comma-separated rendering of a part list, as the specification
words it: the header, the elements in order with `", "` between every two consecutive
elements and none after the last, and two line ends. -/
def commaSeparatedList (parts : List String) : String :=
  "Product parts: " ++ ", ".intercalate parts ++ "\n\n"

/-- The elements of a part list in order, each followed by `", "` exactly when its string
differs from `last`. -/
def separatedByValue (last : Option String) : List String → String
  | [] => ""
  | x :: rest => (if some x = last then x else x ++ ", ") ++ separatedByValue last rest

/-- The text of a rendering that places separators by value: the header, each element in
order followed by `", "` exactly when its string differs from the string of the last
element, and two line ends. -/
def renderedByValue (parts : List String) : String :=
  "Product parts: " ++ separatedByValue parts.getLast? parts ++ "\n\n"

/-- The part list of the product that `GetProduct` returns after the step calls `steps`
were issued on the builder at address `builder`. -/
def stepsThenGetProduct (m : Memory) (builder : Nat) (steps : List Step) :
    Option (List String) :=
  (callSteps m builder steps).bind fun m =>
  (ConcreteBuilder1.GetProduct m builder).bind fun (m, p) =>
  partsAt m p

/-- The memory `m` is the one right after the builder at address `builder` was
constructed, or right after a `Reset` of it, or right after a `GetProduct` of it. -/
def FreshlyStarted (m : Memory) (builder : Nat) : Prop :=
  (∃ m0, ConcreteBuilder1.new m0 = some (m, builder)) ∨
  (∃ m0, ConcreteBuilder1.Reset m0 builder = some m) ∨
  (∃ m0 p, ConcreteBuilder1.GetProduct m0 builder = some (m, p))

/-- The part list of the product obtained as in `ClientCode`: `SetBuilder(builder)` on the
director, one recipe call, then `GetProduct` on the builder. -/
def recipeThenGetProduct (m : Memory) (director builder : Nat) (r : Recipe) :
    Option (List String) :=
  (Director.SetBuilder m director (some builder)).bind fun m =>
  (r.call m director).bind fun m =>
  (ConcreteBuilder1.GetProduct m builder).bind fun (m, p) =>
  partsAt m p

/-- No two builders of the memory share a product, and every builder points to a
product of the memory. Every memory built from `Memory.empty` by the constructors and
methods above satisfies it. -/
def Memory.Separated (m : Memory) : Prop :=
  (m.builders.map ConcreteBuilder1.product_).Nodup ∧
    ∀ b ∈ m.builders, b.product_ < m.products.length

instance (m : Memory) : Decidable m.Separated :=
  inferInstanceAs (Decidable ((m.builders.map ConcreteBuilder1.product_).Nodup ∧
    ∀ b ∈ m.builders, b.product_ < m.products.length))

end BuilderCpp


/-! ## Theorems: `AbstractFactory.cpp` -/

namespace AbstractFactoryCpp

/-- C3: for each concrete factory, the text of `UsefulFuntionA()` of its product A occurs
verbatim, as a contiguous run of characters, in the text that its product B returns from
`AnotherUsefulFuntionB` on that product A; the result is
`"The result of the B{v} collaborating with ( "`, then that text, then `" )"`. -/
theorem same_variant_collaboration_embeds_description (factory : AbstractFactory) :
    (factory.CreateProductA.UsefulFuntionA).data <:+:
        (factory.CreateProductB.AnotherUsefulFuntionB factory.CreateProductA).data ∧
      factory.CreateProductB.AnotherUsefulFuntionB factory.CreateProductA =
        "The result of the B" ++ variantDigit factory ++ " collaborating with ( " ++
          factory.CreateProductA.UsefulFuntionA ++ " )" := by
  cases factory <;> decide

/-- C8: each concrete factory yields products of its own variant only. The product A of
`ConcreteFactory{v}` answers `"The result of the product A{v}."` and its product B answers
`"The result of the product B{v}."`; a factory of another variant yields products whose
answers differ, also in collaboration with any product A. The creation methods read no
state: the product depends on the dynamic type of the factory alone, so repeated calls
yield products with equal answers. -/
theorem factory_products_have_own_variant :
    AbstractFactory.ConcreteFactory1.CreateProductA.UsefulFuntionA =
        "The result of the product A1." ∧
      AbstractFactory.ConcreteFactory1.CreateProductB.UsefulFuntionB =
        "The result of the product B1." ∧
      AbstractFactory.ConcreteFactory2.CreateProductA.UsefulFuntionA =
        "The result of the product A2." ∧
      AbstractFactory.ConcreteFactory2.CreateProductB.UsefulFuntionB =
        "The result of the product B2." ∧
      (∀ f : AbstractFactory,
        f.CreateProductA.UsefulFuntionA =
            "The result of the product A" ++ variantDigit f ++ "." ∧
          f.CreateProductB.UsefulFuntionB =
            "The result of the product B" ++ variantDigit f ++ ".") ∧
      ∀ f g : AbstractFactory, f ≠ g →
        f.CreateProductA.UsefulFuntionA ≠ g.CreateProductA.UsefulFuntionA ∧
          f.CreateProductB.UsefulFuntionB ≠ g.CreateProductB.UsefulFuntionB ∧
          ∀ a : AbstrctProductA,
            f.CreateProductB.AnotherUsefulFuntionB a ≠
              g.CreateProductB.AnotherUsefulFuntionB a := by
  refine ⟨rfl, rfl, rfl, rfl, ?_, ?_⟩
  · intro f
    cases f <;> decide
  · intro f g hfg
    cases f <;> cases g <;> first
      | exact absurd rfl hfg
      | exact ⟨by decide, by decide, fun a => by cases a <;> decide⟩

end AbstractFactoryCpp

/-! ## Theorems: `Adapter.cpp` -/

namespace AdapterCpp

/-- C4, as stated, fails: the text of `Adapter1::Request()` over an `Adaptee` differs from
the text of `Adapter2::Request()`. -/
theorem adapter_requests_differ :
    Adapter1.Request { adaptee_ := {} } ≠ Adapter2.Request { toAdaptee := {} } := by
  decide

/-- C4, amended: the two adapters return the same translated payload, each behind its own
tag. `Adapter1::Request()` is `"Adapter1: (TRANSLATED) "` followed by a text `t`, and
`Adapter2::Request()` is `"Adapter2: (TRANSLATED) "` followed by the same `t`, the reversal
of `SpecificRequest()`; the two results agree from character 23 on and differ before. -/
theorem adapter_requests_share_payload (a1 : Adapter1) (a2 : Adapter2) :
    ∃ t : String, t = reverse a1.adaptee_.SpecificRequest ∧
      t = reverse a2.toAdaptee.SpecificRequest ∧
      a1.Request = "Adapter1: (TRANSLATED) " ++ t ∧
      a2.Request = "Adapter2: (TRANSLATED) " ++ t ∧
      a1.Request.data.drop 23 = t.data ∧
      a2.Request.data.drop 23 = t.data ∧
      a1.Request.data.take 23 ≠ a2.Request.data.take 23 := by
  obtain ⟨⟨⟩⟩ := a1
  obtain ⟨⟨⟩⟩ := a2
  refine ⟨_, rfl, rfl, rfl, rfl, ?_, ?_, ?_⟩ <;> decide

end AdapterCpp

/-! ## Lemmas: `Builder.cpp` -/

namespace BuilderCpp

theorem Reset_eq {m : Memory} {this : Nat} {b : ConcreteBuilder1}
    (hb : m.builders[this]? = some b) :
    ConcreteBuilder1.Reset m this =
      some { m with products := m.products ++ [{ parts_ := [] }],
                    builders := m.builders.set this { product_ := m.products.length } } := by
  simp [ConcreteBuilder1.Reset, hb, Product1.new]

theorem Reset_inv {m m1 : Memory} {this : Nat}
    (h : ConcreteBuilder1.Reset m this = some m1) :
    (∃ b, m.builders[this]? = some b) ∧
      m1 = { m with products := m.products ++ [{ parts_ := [] }],
                    builders := m.builders.set this { product_ := m.products.length } } := by
  cases hb : m.builders[this]? with
  | none => simp [ConcreteBuilder1.Reset, hb] at h
  | some b =>
    rw [Reset_eq hb] at h
    exact ⟨⟨b, rfl⟩, (Option.some.inj h).symm⟩

theorem GetProduct_eq {m : Memory} {this : Nat} {b : ConcreteBuilder1}
    (hb : m.builders[this]? = some b) :
    ConcreteBuilder1.GetProduct m this =
      some ({ m with products := m.products ++ [{ parts_ := [] }],
                     builders := m.builders.set this { product_ := m.products.length } },
            b.product_) := by
  simp [ConcreteBuilder1.GetProduct, hb, Reset_eq hb]

theorem GetProduct_inv {m m1 : Memory} {this p : Nat}
    (h : ConcreteBuilder1.GetProduct m this = some (m1, p)) :
    (∃ b, m.builders[this]? = some b ∧ b.product_ = p) ∧
      m1 = { m with products := m.products ++ [{ parts_ := [] }],
                    builders := m.builders.set this { product_ := m.products.length } } := by
  cases hb : m.builders[this]? with
  | none => simp [ConcreteBuilder1.GetProduct, hb] at h
  | some b =>
    rw [GetProduct_eq hb] at h
    have h1 := Option.some.inj h
    exact ⟨⟨b, rfl, congrArg Prod.snd h1⟩, (congrArg Prod.fst h1).symm⟩

theorem new_eq (m : Memory) :
    ConcreteBuilder1.new m =
      some ({ m with products := m.products ++ [{ parts_ := [] }],
                     builders := m.builders ++ [{ product_ := m.products.length }] },
            m.builders.length) := by
  have hb : ({ m with builders := m.builders ++ [{ product_ := 0 }] } : Memory).builders[
      m.builders.length]? = some { product_ := 0 } := List.getElem?_concat_length _ _
  simp [ConcreteBuilder1.new, Reset_eq hb]

theorem push_back_eq {m : Memory} {product : Nat} {ps : List String} (s : String)
    (hp : partsAt m product = some ps) :
    Product1.push_back m product s =
      some { m with products := m.products.set product { parts_ := ps ++ [s] } } := by
  unfold partsAt at hp
  cases hq : m.products[product]? with
  | none => simp [hq] at hp
  | some q =>
    simp [hq] at hp
    simp [Product1.push_back, hq, hp]

theorem Step_call_eq {m : Memory} {builder : Nat} {b : ConcreteBuilder1} {ps : List String}
    (s : Step) (hb : m.builders[builder]? = some b) (hp : partsAt m b.product_ = some ps) :
    s.call m builder =
      some { m with products := m.products.set b.product_ { parts_ := ps ++ [s.identifier] } } := by
  cases s <;>
    simp [Step.call, Step.identifier, ConcreteBuilder1.ProducePartA,
      ConcreteBuilder1.ProducePartB, ConcreteBuilder1.ProducePartC, hb, push_back_eq _ hp]

theorem partsAt_lt {m : Memory} {p : Nat} {ps : List String} (h : partsAt m p = some ps) :
    p < m.products.length := by
  unfold partsAt at h
  by_contra hlt
  rw [List.getElem?_eq_none (Nat.le_of_not_lt hlt)] at h
  simp at h

theorem partsAt_set_self {m : Memory} {p : Nat} (q : Product1) (h : p < m.products.length) :
    partsAt { m with products := m.products.set p q } p = some q.parts_ := by
  simp [partsAt, List.getElem?_set_self h]

theorem pending_inv {m : Memory} {builder : Nat} {ps : List String}
    (h : pending m builder = some ps) :
    ∃ b, m.builders[builder]? = some b ∧ partsAt m b.product_ = some ps := by
  unfold pending at h
  cases hb : m.builders[builder]? with
  | none => simp [hb] at h
  | some b => exact ⟨b, rfl, by simpa [hb] using h⟩

theorem callSteps_eq {builder : Nat} {b : ConcreteBuilder1} (steps : List Step) :
    ∀ {m : Memory} {ps : List String}, m.builders[builder]? = some b →
      partsAt m b.product_ = some ps →
      callSteps m builder steps =
        some { m with products :=
          m.products.set b.product_ { parts_ := ps ++ steps.map Step.identifier } } := by
  induction steps with
  | nil =>
    intro m ps _ hp
    unfold partsAt at hp
    cases hq : m.products[b.product_]? with
    | none => simp [hq] at hp
    | some q =>
      simp [hq] at hp
      have : m.products.set b.product_ { parts_ := ps } = m.products := by
        apply List.ext_getElem?
        intro i
        by_cases hi : b.product_ = i
        · subst hi
          rw [List.getElem?_set_self (partsAt_lt (by simp [partsAt, hq]; exact hp)), hq]
          cases q; simp_all
        · rw [List.getElem?_set_ne hi]
      simp [callSteps, this]
  | cons s rest ih =>
    intro m ps hb hp
    have hlt := partsAt_lt hp
    simp only [callSteps, Step_call_eq s hb hp, Option.some_bind]
    rw [ih (by simpa using hb) (partsAt_set_self ⟨ps ++ [s.identifier]⟩ hlt)]
    simp [List.set_set]

theorem pending_after_Reset {m m1 : Memory} {this : Nat}
    (h : ConcreteBuilder1.Reset m this = some m1) : pending m1 this = some [] := by
  obtain ⟨⟨b, hb⟩, rfl⟩ := Reset_inv h
  have hlt : this < m.builders.length := (List.getElem?_eq_some_iff.mp hb).1
  simp [pending, partsAt, List.getElem?_set_self hlt]

theorem pending_after_GetProduct {m m1 : Memory} {this p : Nat}
    (h : ConcreteBuilder1.GetProduct m this = some (m1, p)) : pending m1 this = some [] := by
  obtain ⟨⟨b, hb, _⟩, rfl⟩ := GetProduct_inv h
  exact pending_after_Reset (Reset_eq hb)

theorem pending_after_new {m m1 : Memory} {this : Nat}
    (h : ConcreteBuilder1.new m = some (m1, this)) : pending m1 this = some [] := by
  rw [new_eq] at h
  have h1 := Option.some.inj h
  have h2 := congrArg Prod.fst h1
  have h3 := congrArg Prod.snd h1
  simp only at h2 h3
  subst h2 h3
  simp [pending, partsAt]

theorem FreshlyStarted.pending {m : Memory} {builder : Nat} (h : FreshlyStarted m builder) :
    pending m builder = some [] := by
  rcases h with ⟨m0, h⟩ | ⟨m0, h⟩ | ⟨m0, p, h⟩
  · exact pending_after_new h
  · exact pending_after_Reset h
  · exact pending_after_GetProduct h

theorem stepsThenGetProduct_eq {m : Memory} {builder : Nat} {ps : List String}
    (steps : List Step) (h : pending m builder = some ps) :
    stepsThenGetProduct m builder steps = some (ps ++ steps.map Step.identifier) := by
  obtain ⟨b, hb, hp⟩ := pending_inv h
  have hlt := partsAt_lt hp
  unfold stepsThenGetProduct
  rw [callSteps_eq steps hb hp]
  simp only [Option.some_bind]
  rw [GetProduct_eq (b := b) (by simpa using hb)]
  simp [partsAt, List.getElem?_append_left, hlt, List.getElem?_set_self]

theorem partsAt_of_lt {m : Memory} {p : Nat} (h : p < m.products.length) :
    ∃ ps, partsAt m p = some ps := by
  simp [partsAt, List.getElem?_eq_getElem h]

theorem partsAt_new_twice (m : Memory) (builders : List ConcreteBuilder1) :
    partsAt { products := m.products ++ [{ parts_ := [] }] ++ [{ parts_ := [] }],
              builders := builders, directors := m.directors } m.products.length =
      some [] := by
  have h3 : m.products.length < (m.products ++ [({ parts_ := [] } : Product1)]).length := by
    simp
  show Option.map _ ((m.products ++ [({ parts_ := [] } : Product1)] ++
    [{ parts_ := [] }])[m.products.length]?) = some []
  rw [List.getElem?_append_left h3, List.getElem?_concat_length]
  rfl

theorem callAll_frame {builder q : Nat} (calls : List Call) :
    ∀ {m : Memory} {b : ConcreteBuilder1}, m.builders[builder]? = some b →
      b.product_ < m.products.length → q < m.products.length → q ≠ b.product_ →
      ∃ m1 returned b1, callAll m builder calls = some (m1, returned) ∧ q ∉ returned ∧
        m1.products[q]? = m.products[q]? ∧ m1.builders[builder]? = some b1 ∧
        b1.product_ < m1.products.length ∧ q ≠ b1.product_ := by
  induction calls with
  | nil =>
    intro m b hb hlt _ hne
    exact ⟨m, [], b, rfl, by simp, rfl, hb, hlt, hne⟩
  | cons c rest ih =>
    intro m b hb hlt hq hne
    have hbl : builder < m.builders.length := (List.getElem?_eq_some_iff.mp hb).1
    cases c with
    | step s =>
      obtain ⟨ps, hp⟩ := partsAt_of_lt hlt
      obtain ⟨m1, returned, b1, h1, h2, h3, h4, h5, h6⟩ :=
        ih (m := { m with products :=
              m.products.set b.product_ { parts_ := ps ++ [s.identifier] } })
          (b := b) (by simpa using hb) (by simpa using hlt) (by simpa using hq) hne
      refine ⟨m1, returned, b1, ?_, h2, ?_, h4, h5, h6⟩
      · simp only [callAll, Step_call_eq s hb hp, Option.some_bind]
        exact h1
      · rw [h3]
        exact List.getElem?_set_ne (Ne.symm hne)
    | Reset =>
      obtain ⟨m1, returned, b1, h1, h2, h3, h4, h5, h6⟩ :=
        ih (m := { m with products := m.products ++ [{ parts_ := [] }],
                          builders := m.builders.set builder { product_ := m.products.length } })
          (b := { product_ := m.products.length })
          (by simp [List.getElem?_set_self hbl]) (by simp) (by simp; omega)
          (by simp; omega)
      refine ⟨m1, returned, b1, ?_, h2, ?_, h4, h5, h6⟩
      · simp only [callAll, Reset_eq hb, Option.some_bind]
        exact h1
      · rw [h3]
        exact List.getElem?_append_left hq
    | GetProduct =>
      obtain ⟨m1, returned, b1, h1, h2, h3, h4, h5, h6⟩ :=
        ih (m := { m with products := m.products ++ [{ parts_ := [] }],
                          builders := m.builders.set builder { product_ := m.products.length } })
          (b := { product_ := m.products.length })
          (by simp [List.getElem?_set_self hbl]) (by simp) (by simp; omega)
          (by simp; omega)
      refine ⟨m1, b.product_ :: returned, b1, ?_, ?_, ?_, h4, h5, h6⟩
      · simp only [callAll, GetProduct_eq hb, Option.some_bind, h1, Option.map_some']
      · simp [h2, hne]
      · rw [h3]
        exact List.getElem?_append_left hq

theorem live_after_callAll {builder : Nat} (calls : List Call) :
    ∀ {m : Memory} {ps : List String}, pending m builder = some ps →
      ∃ m1 returned ps1, callAll m builder calls = some (m1, returned) ∧
        pending m1 builder = some ps1 := by
  induction calls with
  | nil =>
    intro m ps h
    exact ⟨m, [], ps, rfl, h⟩
  | cons c rest ih =>
    intro m ps h
    obtain ⟨b, hb, hp⟩ := pending_inv h
    have hlt := partsAt_lt hp
    cases c with
    | step s =>
      have h1 : pending { m with products :=
                                   m.products.set b.product_
                                     { parts_ := ps ++ [s.identifier] } } builder =
          some (ps ++ [s.identifier]) := by
        simp [pending, hb, partsAt, List.getElem?_set_self hlt]
      obtain ⟨m1, returned, ps1, g1, g2⟩ := ih h1
      exact ⟨m1, returned, ps1, by
        simp only [callAll, Step_call_eq s hb hp, Option.some_bind]
        exact g1, g2⟩
    | Reset =>
      obtain ⟨m1, returned, ps1, g1, g2⟩ := ih (pending_after_Reset (Reset_eq hb))
      exact ⟨m1, returned, ps1, by
        simp only [callAll, Reset_eq hb, Option.some_bind]
        exact g1, g2⟩
    | GetProduct =>
      obtain ⟨m1, returned, ps1, g1, g2⟩ := ih (pending_after_Reset (Reset_eq hb))
      exact ⟨m1, b.product_ :: returned, ps1, by
        simp only [callAll, GetProduct_eq hb, Option.some_bind, g1, Option.map_some'], g2⟩

/-! ### The director -/

theorem SetBuilder_eq {m : Memory} {director : Nat} {d : Director}
    (hd : m.directors[director]? = some d) (builder : Option Nat) :
    Director.SetBuilder m director builder =
      some { m with directors := m.directors.set director { builder_ := builder } } := by
  simp [Director.SetBuilder, hd]

theorem Recipe_call_eq {m : Memory} {director builder : Nat} {d : Director}
    {b : ConcreteBuilder1} {ps : List String} (r : Recipe)
    (hd : m.directors[director]? = some d) (hdb : d.builder_ = some builder)
    (hb : m.builders[builder]? = some b) (hp : partsAt m b.product_ = some ps) :
    r.call m director =
      some { m with products := m.products.set b.product_ { parts_ := ps ++ r.identifiers } } := by
  cases r with
  | BuildMinimalViableProduct =>
    simpa [Recipe.call, Director.BuildMinimalViableProduct, hd, hdb, Step.call,
      Recipe.identifiers, Step.identifier] using Step_call_eq Step.ProducePartA hb hp
  | BuildFullFraturedProduct =>
    have h := callSteps_eq [Step.ProducePartA, Step.ProducePartB, Step.ProducePartC] hb hp
    simpa [Recipe.call, Director.BuildFullFraturedProduct, hd, hdb, callSteps, Step.call,
      Recipe.identifiers, Step.identifier] using h

theorem callRecipes_eq {director builder : Nat} {d : Director} {b : ConcreteBuilder1}
    (recipes : List Recipe) :
    ∀ {m : Memory} {ps : List String}, m.directors[director]? = some d →
      d.builder_ = some builder → m.builders[builder]? = some b →
      partsAt m b.product_ = some ps →
      callRecipes m director recipes =
        some { m with
          products := m.products.set b.product_
            { parts_ := ps ++ (recipes.map Recipe.identifiers).flatten } } := by
  induction recipes with
  | nil =>
    intro m ps _ _ hb hp
    simpa [callRecipes, callSteps] using callSteps_eq [] hb hp
  | cons r rest ih =>
    intro m ps hd hdb hb hp
    have hlt := partsAt_lt hp
    simp only [callRecipes, Recipe_call_eq r hd hdb hb hp, Option.some_bind]
    rw [ih (by simpa using hd) hdb (by simpa using hb)
      (partsAt_set_self ⟨ps ++ r.identifiers⟩ hlt)]
    simp [List.set_set]

theorem recipeThenGetProduct_eq {m : Memory} {director builder : Nat} {ps : List String}
    (r : Recipe) (hd : director < m.directors.length) (h : pending m builder = some ps) :
    recipeThenGetProduct m director builder r = some (ps ++ r.identifiers) := by
  obtain ⟨b, hb, hp⟩ := pending_inv h
  have hlt := partsAt_lt hp
  have hd0 : m.directors[director]? = some m.directors[director] :=
    List.getElem?_eq_getElem hd
  have hd1 : ({ m with directors := m.directors.set director { builder_ := some builder } } :
      Memory).directors[director]? = some { builder_ := some builder } := by
    simp [List.getElem?_set_self hd]
  unfold recipeThenGetProduct
  rw [SetBuilder_eq hd0]
  simp only [Option.some_bind]
  have hp1 : partsAt { m with directors :=
                                m.directors.set director { builder_ := some builder } }
      b.product_ = some ps := hp
  rw [Recipe_call_eq r hd1 rfl (by simpa using hb) hp1]
  simp only [Option.some_bind]
  rw [GetProduct_eq (b := b) (by simpa using hb)]
  simp [partsAt, List.getElem?_append_left, hlt, List.getElem?_set_self]

/-! ### Builders do not share products -/

theorem Separated_empty : Memory.empty.Separated := by
  decide

theorem Memory.Separated.product_ne {m : Memory} (h : m.Separated) {i j : Nat}
    {bi bj : ConcreteBuilder1} (hi : m.builders[i]? = some bi)
    (hj : m.builders[j]? = some bj) (hij : i ≠ j) : bi.product_ ≠ bj.product_ := by
  obtain ⟨hil, hie⟩ := List.getElem?_eq_some_iff.mp hi
  obtain ⟨hjl, hje⟩ := List.getElem?_eq_some_iff.mp hj
  intro heq
  have hil1 : i < (m.builders.map ConcreteBuilder1.product_).length := by simpa using hil
  have hjl1 : j < (m.builders.map ConcreteBuilder1.product_).length := by simpa using hjl
  have := (@List.Nodup.getElem_inj_iff _ _ h.1 i hil1 j hjl1).mp
    (by simp [hie, hje, heq])
  exact hij this

theorem Memory.Separated.lt {m : Memory} (h : m.Separated) {i : Nat} {b : ConcreteBuilder1}
    (hi : m.builders[i]? = some b) : b.product_ < m.products.length :=
  h.2 b (List.mem_iff_getElem?.mpr ⟨i, hi⟩)

theorem Separated_of_same_builders {m m1 : Memory} (h : m.Separated)
    (hb : m1.builders = m.builders) (hl : m1.products.length = m.products.length) :
    m1.Separated := by
  unfold Memory.Separated at h ⊢
  rw [hb, hl]
  exact h

theorem Separated_after_Reset {m m1 : Memory} {this : Nat} (h : m.Separated)
    (hr : ConcreteBuilder1.Reset m this = some m1) : m1.Separated := by
  obtain ⟨_, rfl⟩ := Reset_inv hr
  constructor
  · show (List.map ConcreteBuilder1.product_
      (m.builders.set this { product_ := m.products.length })).Nodup
    rw [List.map_set]
    apply List.Nodup.set h.1
    intro hmem
    obtain ⟨b, hbm, hbe⟩ := List.mem_map.mp hmem
    have := h.2 b hbm
    simp only at hbe
    omega
  · intro b hbm
    show b.product_ < (m.products ++ [({ parts_ := [] } : Product1)]).length
    rw [List.length_append]
    rcases List.mem_or_eq_of_mem_set hbm with hmem | rfl
    · have := h.2 b hmem
      omega
    · simp

theorem Separated_after_GetProduct {m m1 : Memory} {this p : Nat} (h : m.Separated)
    (hg : ConcreteBuilder1.GetProduct m this = some (m1, p)) : m1.Separated := by
  obtain ⟨⟨b, hb, _⟩, rfl⟩ := GetProduct_inv hg
  exact Separated_after_Reset h (Reset_eq hb)

theorem Separated_after_new {m m1 : Memory} {this : Nat} (h : m.Separated)
    (hn : ConcreteBuilder1.new m = some (m1, this)) : m1.Separated := by
  rw [new_eq] at hn
  have h2 := congrArg Prod.fst (Option.some.inj hn)
  simp only at h2
  subst h2
  constructor
  · show (List.map ConcreteBuilder1.product_
      (m.builders ++ [{ product_ := m.products.length }])).Nodup
    rw [List.map_append, List.nodup_append]
    refine ⟨h.1, by simp, ?_⟩
    intro x hx hx1
    obtain ⟨b, hbm, hbe⟩ := List.mem_map.mp hx
    have := h.2 b hbm
    simp at hx1
    omega
  · intro b hbm
    show b.product_ < (m.products ++ [({ parts_ := [] } : Product1)]).length
    rw [List.length_append]
    rcases List.mem_append.mp hbm with hmem | hmem
    · have := h.2 b hmem
      omega
    · simp at hmem
      subst hmem
      simp

theorem Separated_after_Step {m m1 : Memory} {builder : Nat} {s : Step} (h : m.Separated)
    (hs : s.call m builder = some m1) : m1.Separated := by
  cases hb : m.builders[builder]? with
  | none =>
    cases s <;>
      simp [Step.call, ConcreteBuilder1.ProducePartA, ConcreteBuilder1.ProducePartB,
        ConcreteBuilder1.ProducePartC, hb] at hs
  | some b =>
    obtain ⟨ps, hp⟩ := partsAt_of_lt (h.lt hb)
    rw [Step_call_eq s hb hp] at hs
    have := Option.some.inj hs
    subst this
    exact Separated_of_same_builders h rfl (by simp)

theorem Separated_after_Director_new {m : Memory} (h : m.Separated) :
    (Director.new m).1.Separated :=
  Separated_of_same_builders h rfl rfl

theorem Separated_after_SetBuilder {m m1 : Memory} {director : Nat} {builder : Option Nat}
    (h : m.Separated) (hs : Director.SetBuilder m director builder = some m1) :
    m1.Separated := by
  cases hd : m.directors[director]? with
  | none => simp [Director.SetBuilder, hd] at hs
  | some d =>
    rw [SetBuilder_eq hd] at hs
    have := Option.some.inj hs
    subst this
    exact Separated_of_same_builders h rfl rfl

theorem Separated_after_Recipe {m m1 : Memory} {director : Nat} {r : Recipe}
    (h : m.Separated) (hr : r.call m director = some m1) : m1.Separated := by
  cases hd : m.directors[director]? with
  | none =>
    cases r <;>
      simp [Recipe.call, Director.BuildMinimalViableProduct,
        Director.BuildFullFraturedProduct, hd] at hr
  | some d =>
    cases hdb : d.builder_ with
    | none =>
      cases r <;>
        simp [Recipe.call, Director.BuildMinimalViableProduct,
          Director.BuildFullFraturedProduct, hd, hdb] at hr
    | some builder =>
      cases hb : m.builders[builder]? with
      | none =>
        cases r <;>
          simp [Recipe.call, Director.BuildMinimalViableProduct,
            Director.BuildFullFraturedProduct, hd, hdb, ConcreteBuilder1.ProducePartA,
            hb] at hr
      | some b =>
        obtain ⟨ps, hp⟩ := partsAt_of_lt (h.lt hb)
        rw [Recipe_call_eq r hd hdb hb hp] at hr
        have := Option.some.inj hr
        subst this
        exact Separated_of_same_builders h rfl (by simp)

/-! ### `ListParts` -/

theorem separatedByValue_concat (last : Option String) (parts : List String) (x : String) :
    separatedByValue last (parts ++ [x]) =
      separatedByValue last parts ++ (if some x = last then x else x ++ ", ") := by
  induction parts with
  | nil => simp [separatedByValue]
  | cons y rest ih => simp [separatedByValue, ih, String.append_assoc]

theorem ListParts_loop (parts : List String) (cout : String) :
    ∀ k, k ≤ parts.length →
      (List.range k).foldlM
        (fun (cout : String) (i : Nat) =>
          match parts[i]?, parts.getLast? with
          | some x, some back =>
            if x = back then some (cout ++ x) else some (cout ++ x ++ ", ")
          | _, _ => none)
        cout = some (cout ++ separatedByValue parts.getLast? (parts.take k)) := by
  intro k
  induction k with
  | zero =>
    intro _
    simp [separatedByValue]
  | succ k ih =>
    intro hk
    have hlt : k < parts.length := hk
    have hne : parts ≠ [] := by
      intro h
      simp [h] at hlt
    obtain ⟨back, hback⟩ : ∃ back, parts.getLast? = some back := by
      cases h : parts.getLast? with
      | none => exact absurd (List.getLast?_eq_none_iff.mp h) hne
      | some back => exact ⟨back, rfl⟩
    rw [List.range_succ, List.foldlM_append, ih (Nat.le_of_lt hlt)]
    rw [List.take_succ, List.getElem?_eq_getElem hlt]
    simp only [Option.toList, separatedByValue_concat]
    by_cases hx : parts[k] = back
    · simp [hback, hx, String.append_assoc, List.getElem?_eq_getElem hlt]
    · simp [hback, hx, String.append_assoc, List.getElem?_eq_getElem hlt]

theorem ListParts_eq (parts : List String) (cout : String) :
    Product1.ListParts { parts_ := parts } cout = some (cout ++ renderedByValue parts) := by
  unfold Product1.ListParts renderedByValue
  simp only []
  rw [ListParts_loop parts _ parts.length (Nat.le_refl _), List.take_length]
  simp [String.append_assoc]

theorem String_append_left_cancel {a b c : String} (h : a ++ b = a ++ c) : b = c := by
  apply String.ext
  have h1 := congrArg String.data h
  simp only [String.data_append] at h1
  exact List.append_cancel_left h1

theorem String_append_right_cancel {a b c : String} (h : a ++ c = b ++ c) : a = b := by
  apply String.ext
  have h1 := congrArg String.data h
  simp only [String.data_append] at h1
  exact List.append_cancel_right h1

theorem intercalate_go_concat (last : String) (parts : List String) :
    ∀ acc : String, String.intercalate.go acc ", " (parts ++ [last]) =
      acc ++ ", " ++ separatedByValue none parts ++ last := by
  induction parts with
  | nil =>
    intro acc
    simp [String.intercalate.go, separatedByValue]
  | cons x rest ih =>
    intro acc
    simp [String.intercalate.go, separatedByValue, ih, String.append_assoc]

theorem intercalate_concat (last : String) (parts : List String) :
    ", ".intercalate (parts ++ [last]) = separatedByValue none parts ++ last := by
  cases parts with
  | nil => simp [String.intercalate, String.intercalate.go, separatedByValue]
  | cons x rest =>
    simp [String.intercalate, intercalate_go_concat, separatedByValue, String.append_assoc]

theorem separatedByValue_length_le (last : Option String) (parts : List String) :
    (separatedByValue last parts).length ≤ (separatedByValue none parts).length := by
  induction parts with
  | nil => simp [separatedByValue]
  | cons x rest ih =>
    have hn : ¬ (some x = (none : Option String)) := by simp
    by_cases hx : some x = last
    · simp only [separatedByValue, if_pos hx, if_neg hn, String.length_append]
      omega
    · simp only [separatedByValue, if_neg hx, if_neg hn, String.length_append]
      omega

theorem separatedByValue_eq_none_iff (last : String) (parts : List String) :
    separatedByValue (some last) parts = separatedByValue none parts ↔
      ∀ x ∈ parts, x ≠ last := by
  induction parts with
  | nil => simp [separatedByValue]
  | cons x rest ih =>
    by_cases hx : x = last
    · constructor
      · intro h
        have hlen := congrArg String.length h
        have hle := separatedByValue_length_le (some last) rest
        simp [separatedByValue, hx, String.length_append] at hlen
        have h2 : (", " : String).length = 2 := by decide
        omega
      · intro h
        exact absurd hx (h x (List.mem_cons_self _ _))
    · constructor
      · intro h
        simp only [separatedByValue, Option.some.injEq, hx, if_false, reduceCtorEq] at h
        have h1 := ih.mp (String_append_left_cancel h)
        intro y hy
        rcases List.mem_cons.mp hy with rfl | hy
        · exact hx
        · exact h1 y hy
      · intro h
        have h1 := ih.mpr fun y hy => h y (List.mem_cons_of_mem _ hy)
        simp [separatedByValue, hx, h1]

theorem ListParts_comma_iff (parts : List String) (cout : String) :
    Product1.ListParts { parts_ := parts } cout = some (cout ++ commaSeparatedList parts) ↔
      ∀ x ∈ parts.dropLast, some x ≠ parts.getLast? := by
  rw [ListParts_eq]
  rcases List.eq_nil_or_concat parts with rfl | ⟨init, last, rfl⟩
  · simp [renderedByValue, commaSeparatedList, separatedByValue, String.intercalate]
  · rw [List.concat_eq_append]
    simp only [renderedByValue, commaSeparatedList, List.getLast?_concat, List.dropLast_concat,
      separatedByValue_concat, intercalate_concat, if_true, Option.some.injEq]
    have key := separatedByValue_eq_none_iff last init
    constructor
    · intro h x hx
      have h1 := String_append_right_cancel (String_append_left_cancel h)
      have h2 := String_append_right_cancel (String_append_left_cancel h1)
      simpa using key.mp h2 x hx
    · intro h
      have h2 : separatedByValue (some last) init = separatedByValue none init :=
        key.mpr fun x hx => by simpa using h x hx
      rw [h2]

/-! ### Totality and frame of call sequences -/

theorem Recipe_call_appends {m : Memory} {director builder : Nat} {ps : List String}
    (r : Recipe) (hd : m.directors[director]? = some { builder_ := some builder })
    (h : pending m builder = some ps) :
    ∃ m1, r.call m director = some m1 ∧ pending m1 builder = some (ps ++ r.identifiers) ∧
      m1.builders = m.builders ∧ m1.products.length = m.products.length ∧
      m1.directors = m.directors := by
  obtain ⟨b, hb, hp⟩ := pending_inv h
  have hlt := partsAt_lt hp
  refine ⟨_, Recipe_call_eq r hd rfl hb hp, ?_, rfl, ?_, rfl⟩
  · simp [pending, hb, partsAt, List.getElem?_set_self hlt]
  · simp

end BuilderCpp

/-! ## Lemmas: `Adapter.cpp` -/

namespace AdapterCpp

theorem reverse_reverse (s : String) : reverse (reverse s) = s := by
  simp [reverse]

end AdapterCpp

/-! ## Theorems: `Builder.cpp` -/

namespace BuilderCpp

/-- C1: on a `ConcreteBuilder1` that is freshly constructed, freshly `Reset`, or has just
returned from `GetProduct`, every finite sequence of step calls followed by `GetProduct`
succeeds and returns a product whose `parts_` is the list of the steps' identifiers in call
order: it has the length of the call sequence and its `i`-th element is the identifier of
the `i`-th step. With no step the list is empty, and a step called twice appends its
identifier twice. -/
theorem steps_then_GetProduct_lists_identifiers (m : Memory) (builder : Nat)
    (steps : List Step) (h : FreshlyStarted m builder) :
    ∃ parts, stepsThenGetProduct m builder steps = some parts ∧
      parts = steps.map Step.identifier ∧
      parts.length = steps.length ∧
      (∀ i (hi : i < steps.length), parts[i]? = some (steps[i]).identifier) ∧
      stepsThenGetProduct m builder [] = some [] ∧
      ∀ s : Step, stepsThenGetProduct m builder [s, s] = some [s.identifier, s.identifier] := by
  have hp := h.pending
  refine ⟨steps.map Step.identifier, ?_, rfl, by simp, ?_, ?_, ?_⟩
  · simpa using stepsThenGetProduct_eq steps hp
  · intro i hi
    simp [List.getElem?_eq_getElem hi]
  · simpa using stepsThenGetProduct_eq [] hp
  · intro s
    simpa using stepsThenGetProduct_eq [s, s] hp

/-- Witness of C1: the custom product of `ClientCode` (`ProducePartA`, `ProducePartC` on a
builder that has just returned from `GetProduct`). -/
theorem steps_then_GetProduct_lists_identifiers_witness :
    FreshlyStarted (Memory.mk [⟨["PartA1"]⟩, ⟨[]⟩] [⟨1⟩] []) 0 ∧
      ∃ parts,
        stepsThenGetProduct (Memory.mk [⟨["PartA1"]⟩, ⟨[]⟩] [⟨1⟩] []) 0
            [Step.ProducePartA, Step.ProducePartC] = some parts ∧
          parts = ["PartA1", "PartC1"] :=
  have hfresh : FreshlyStarted (Memory.mk [⟨["PartA1"]⟩, ⟨[]⟩] [⟨1⟩] []) 0 :=
    Or.inr (Or.inr ⟨Memory.mk [⟨["PartA1"]⟩] [⟨0⟩] [], 0, by decide⟩)
  ⟨hfresh,
    match steps_then_GetProduct_lists_identifiers _ 0
      [Step.ProducePartA, Step.ProducePartC] hfresh with
    | ⟨parts, h1, h2, _⟩ => ⟨parts, h1, h2⟩⟩

/-- C6: in every state in which the builder holds a live product, with any pending part
list `ps`, two consecutive `GetProduct` calls both succeed; the first returned product
carries exactly `ps` (also after the second call), the second returned product is another
object and its part list is empty. -/
theorem GetProduct_twice_second_is_empty (m : Memory) (builder : Nat) (ps : List String)
    (h : pending m builder = some ps) :
    ∃ m1 p1 m2 p2, ConcreteBuilder1.GetProduct m builder = some (m1, p1) ∧
      ConcreteBuilder1.GetProduct m1 builder = some (m2, p2) ∧
      partsAt m1 p1 = some ps ∧ partsAt m2 p1 = some ps ∧
      partsAt m2 p2 = some [] ∧ p1 ≠ p2 := by
  obtain ⟨b, hb, hp⟩ := pending_inv h
  have hlt := partsAt_lt hp
  have hbl : builder < m.builders.length := (List.getElem?_eq_some_iff.mp hb).1
  have hp0 : m.products[b.product_]? = some { parts_ := ps } := by
    unfold partsAt at hp
    cases hq : m.products[b.product_]? with
    | none => simp [hq] at hp
    | some q => cases q; simp_all
  refine ⟨_, _, _, _, GetProduct_eq hb,
    GetProduct_eq (b := { product_ := m.products.length })
      (by simp [List.getElem?_set_self hbl]), ?_, ?_, ?_, ?_⟩
  · simp [partsAt, List.getElem?_append_left hlt, hp0]
  · have h2 : b.product_ < (m.products ++ [({ parts_ := [] } : Product1)]).length := by
      simp; omega
    simp [partsAt, List.getElem?_append_left h2, List.getElem?_append_left hlt, hp0]
  · exact partsAt_new_twice m _
  · exact Nat.ne_of_lt hlt

/-- Witness of C6: the builder of `ClientCode` after `BuildMinimalViableProduct`. -/
theorem GetProduct_twice_second_is_empty_witness :
    pending (Memory.mk [⟨["PartA1"]⟩] [⟨0⟩] [⟨some 0⟩]) 0 = some ["PartA1"] ∧
      ∃ m1 p1 m2 p2,
        ConcreteBuilder1.GetProduct (Memory.mk [⟨["PartA1"]⟩] [⟨0⟩] [⟨some 0⟩]) 0 =
          some (m1, p1) ∧
        ConcreteBuilder1.GetProduct m1 0 = some (m2, p2) ∧
        partsAt m1 p1 = some ["PartA1"] ∧ partsAt m2 p1 = some ["PartA1"] ∧
        partsAt m2 p2 = some [] ∧ p1 ≠ p2 :=
  ⟨by decide, GetProduct_twice_second_is_empty _ 0 ["PartA1"] (by decide)⟩

/-- C7: in every state in which the builder holds a live product, whatever its pending
part list `ps`, `Reset()` followed by `GetProduct()` succeeds and returns a product with an
empty part list. The product that was pending is discarded: whatever calls follow the
`Reset`, it is never among the products that `GetProduct` returns, and after any steps
the next `GetProduct` returns exactly the identifiers of those steps. -/
theorem Reset_then_GetProduct_is_empty (m : Memory) (builder : Nat) (ps : List String)
    (h : pending m builder = some ps) :
    ∃ m1 m2 p, ConcreteBuilder1.Reset m builder = some m1 ∧
      ConcreteBuilder1.GetProduct m1 builder = some (m2, p) ∧
      partsAt m2 p = some [] ∧
      (∀ steps, stepsThenGetProduct m1 builder steps = some (steps.map Step.identifier)) ∧
      ∃ old, m.builders[builder]? = some old ∧ partsAt m old.product_ = some ps ∧
        old.product_ ≠ p ∧
        ∀ calls, ∃ m3 returned, callAll m1 builder calls = some (m3, returned) ∧
          old.product_ ∉ returned := by
  obtain ⟨b, hb, hp⟩ := pending_inv h
  have hlt := partsAt_lt hp
  have hbl : builder < m.builders.length := (List.getElem?_eq_some_iff.mp hb).1
  have hb1 : ({ m with products := m.products ++ [{ parts_ := [] }],
                       builders := m.builders.set builder { product_ := m.products.length } } :
      Memory).builders[builder]? = some { product_ := m.products.length } := by
    simp [List.getElem?_set_self hbl]
  refine ⟨_, _, _, Reset_eq hb, GetProduct_eq hb1, ?_, ?_, b, hb, hp, Nat.ne_of_lt hlt, ?_⟩
  · exact partsAt_new_twice m _
  · intro steps
    simpa using stepsThenGetProduct_eq steps (pending_after_Reset (Reset_eq hb))
  · intro calls
    obtain ⟨m3, returned, _, h1, h2, _⟩ :=
      callAll_frame (q := b.product_) calls hb1 (by simp) (by simp; omega)
        (Nat.ne_of_lt hlt)
    exact ⟨m3, returned, h1, h2⟩

/-- Witness of C7: a builder with the pending parts of the full recipe. -/
theorem Reset_then_GetProduct_is_empty_witness :
    pending (Memory.mk [⟨["PartA1", "PartB1", "PartC1"]⟩] [⟨0⟩] []) 0 =
        some ["PartA1", "PartB1", "PartC1"] ∧
      ∃ m1 m2 p,
        ConcreteBuilder1.Reset (Memory.mk [⟨["PartA1", "PartB1", "PartC1"]⟩] [⟨0⟩] []) 0 =
          some m1 ∧
        ConcreteBuilder1.GetProduct m1 0 = some (m2, p) ∧ partsAt m2 p = some [] :=
  ⟨by decide,
    match Reset_then_GetProduct_is_empty _ 0 ["PartA1", "PartB1", "PartC1"] (by decide) with
    | ⟨m1, m2, p, h1, h2, h3, _⟩ => ⟨m1, m2, p, h1, h2, h3⟩⟩

/-- C9: in every state in which the builder holds a live product with part list `ps`,
`GetProduct` succeeds and returns that product `p`; right after the call the builder
points to another product, which is new and empty; and after every later sequence of
`ProducePartA/B/C`, `Reset` and `GetProduct` calls on the builder (all of which succeed)
the part list of `p` is still `ps`, `p` was not returned a second time, and the builder
does not point to `p`. -/
theorem GetProduct_hands_off_once (m : Memory) (builder : Nat) (ps : List String)
    (h : pending m builder = some ps) :
    ∃ m1 p, ConcreteBuilder1.GetProduct m builder = some (m1, p) ∧
      partsAt m1 p = some ps ∧ pending m1 builder = some [] ∧
      (∃ b1, m1.builders[builder]? = some b1 ∧ b1.product_ ≠ p ∧
        b1.product_ = m.products.length) ∧
      ∀ calls, ∃ m2 returned b2, callAll m1 builder calls = some (m2, returned) ∧
        partsAt m2 p = some ps ∧ p ∉ returned ∧
        m2.builders[builder]? = some b2 ∧ b2.product_ ≠ p := by
  obtain ⟨b, hb, hp⟩ := pending_inv h
  have hlt := partsAt_lt hp
  have hbl : builder < m.builders.length := (List.getElem?_eq_some_iff.mp hb).1
  have hb1 : ({ m with products := m.products ++ [{ parts_ := [] }],
                       builders := m.builders.set builder { product_ := m.products.length } } :
      Memory).builders[builder]? = some { product_ := m.products.length } := by
    simp [List.getElem?_set_self hbl]
  have hp1 : partsAt { m with products := m.products ++ [{ parts_ := [] }],
                              builders := m.builders.set builder
                                { product_ := m.products.length } } b.product_ =
      some ps := by
    unfold partsAt at hp ⊢
    simpa [List.getElem?_append_left hlt] using hp
  refine ⟨_, _, GetProduct_eq hb, hp1, pending_after_GetProduct (GetProduct_eq hb),
    ⟨_, hb1, Ne.symm (Nat.ne_of_lt hlt), rfl⟩, ?_⟩
  intro calls
  obtain ⟨m2, returned, b2, h1, h2, h3, h4, _, h6⟩ :=
    callAll_frame (q := b.product_) calls hb1 (by simp) (by simp; omega)
      (Nat.ne_of_lt hlt)
  refine ⟨m2, returned, b2, h1, ?_, h2, h4, Ne.symm h6⟩
  unfold partsAt at hp1 ⊢
  rw [h3]
  exact hp1

/-- Witness of C9: the builder of `ClientCode` after `BuildMinimalViableProduct`. -/
theorem GetProduct_hands_off_once_witness :
    pending (Memory.mk [⟨["PartA1"]⟩] [⟨0⟩] [⟨some 0⟩]) 0 = some ["PartA1"] ∧
      ∃ m1 p,
        ConcreteBuilder1.GetProduct (Memory.mk [⟨["PartA1"]⟩] [⟨0⟩] [⟨some 0⟩]) 0 =
          some (m1, p) ∧
        partsAt m1 p = some ["PartA1"] ∧ pending m1 0 = some [] ∧
        ∀ calls, ∃ m2 returned, callAll m1 0 calls = some (m2, returned) ∧
          partsAt m2 p = some ["PartA1"] ∧ p ∉ returned :=
  ⟨by decide,
    match GetProduct_hands_off_once _ 0 ["PartA1"] (by decide) with
    | ⟨m1, p, h1, h2, h3, _, h5⟩ =>
      ⟨m1, p, h1, h2, h3, fun calls =>
        match h5 calls with
        | ⟨m2, returned, _, g1, g2, g3, _⟩ => ⟨m2, returned, g1, g2, g3⟩⟩⟩

/-- C2, as stated, fails: with the director and the builder created as in `main` and
`ClientCode`, the minimal recipe followed by `GetProduct` yields `["PartA1"]`, not
`["PartA"]`, and the full recipe yields `["PartA1", "PartB1", "PartC1"]`, not
`["PartA", "PartB", "PartC"]`. -/
theorem recipes_yield_numbered_identifiers :
    ((ConcreteBuilder1.new (Director.new Memory.empty).1).bind fun (m, builder) =>
        recipeThenGetProduct m (Director.new Memory.empty).2 builder
          Recipe.BuildMinimalViableProduct) = some ["PartA1"] ∧
      ((ConcreteBuilder1.new (Director.new Memory.empty).1).bind fun (m, builder) =>
        recipeThenGetProduct m (Director.new Memory.empty).2 builder
          Recipe.BuildMinimalViableProduct) ≠ some ["PartA"] ∧
      ((ConcreteBuilder1.new (Director.new Memory.empty).1).bind fun (m, builder) =>
        recipeThenGetProduct m (Director.new Memory.empty).2 builder
          Recipe.BuildFullFraturedProduct) ≠ some ["PartA", "PartB", "PartC"] := by
  decide

/-- C2, amended: on a director bound by `SetBuilder` to a builder that holds a live product
with no parts, `BuildMinimalViableProduct` followed by `GetProduct` yields a product whose
part list is exactly `["PartA1"]` (one part), and `BuildFullFraturedProduct` followed by
`GetProduct` yields exactly `["PartA1", "PartB1", "PartC1"]` (three parts, in that
order). -/
theorem director_recipes_on_fresh_builder (m : Memory) (director builder : Nat)
    (hd : director < m.directors.length) (h : pending m builder = some []) :
    recipeThenGetProduct m director builder Recipe.BuildMinimalViableProduct =
        some ["PartA1"] ∧
      recipeThenGetProduct m director builder Recipe.BuildFullFraturedProduct =
        some ["PartA1", "PartB1", "PartC1"] :=
  ⟨by simpa [Recipe.identifiers] using
      recipeThenGetProduct_eq Recipe.BuildMinimalViableProduct hd h,
    by simpa [Recipe.identifiers] using
      recipeThenGetProduct_eq Recipe.BuildFullFraturedProduct hd h⟩

/-- Witness of C2 (amended): the memory of `ClientCode` after `new Director()` and
`new ConcreteBuilder1()`. -/
theorem director_recipes_on_fresh_builder_witness :
    (0 < (Memory.mk [⟨[]⟩] [⟨0⟩] [⟨none⟩]).directors.length ∧
        pending (Memory.mk [⟨[]⟩] [⟨0⟩] [⟨none⟩]) 0 = some []) ∧
      recipeThenGetProduct (Memory.mk [⟨[]⟩] [⟨0⟩] [⟨none⟩]) 0 0
          Recipe.BuildMinimalViableProduct = some ["PartA1"] ∧
      recipeThenGetProduct (Memory.mk [⟨[]⟩] [⟨0⟩] [⟨none⟩]) 0 0
          Recipe.BuildFullFraturedProduct = some ["PartA1", "PartB1", "PartC1"] :=
  ⟨⟨by decide, by decide⟩,
    director_recipes_on_fresh_builder (Memory.mk [⟨[]⟩] [⟨0⟩] [⟨none⟩]) 0 0
      (by decide) (by decide)⟩

/-- C10: in a memory whose builders share no product, let the director be bound to `b1`
and let `b2` be another builder, both holding live products. `SetBuilder(b2)` succeeds and
changes neither the products nor the builders, so both pending part lists stay as they
were; and every sequence of recipe calls issued afterwards succeeds, appends its
identifiers to the pending list of `b2`, and leaves the pending list of every other
builder, `b1` among them, as it was. -/
theorem SetBuilder_rebinds_target_only (m : Memory) (director b1 b2 : Nat)
    (p1 p2 : List String) (hsep : m.Separated) (hne : b1 ≠ b2)
    (hd : m.directors[director]? = some { builder_ := some b1 })
    (h1 : pending m b1 = some p1) (h2 : pending m b2 = some p2) :
    ∃ m1, Director.SetBuilder m director (some b2) = some m1 ∧
      m1.products = m.products ∧ m1.builders = m.builders ∧
      pending m1 b1 = some p1 ∧ pending m1 b2 = some p2 ∧
      ∀ recipes, ∃ m2, callRecipes m1 director recipes = some m2 ∧
        pending m2 b1 = some p1 ∧
        pending m2 b2 = some (p2 ++ (recipes.map Recipe.identifiers).flatten) ∧
        ∀ b, b ≠ b2 → pending m2 b = pending m b := by
  obtain ⟨c2, hc2, hq2⟩ := pending_inv h2
  have hlt2 := partsAt_lt hq2
  have hdl : director < m.directors.length := (List.getElem?_eq_some_iff.mp hd).1
  have hd1 : ({ m with directors := m.directors.set director { builder_ := some b2 } } :
      Memory).directors[director]? = some { builder_ := some b2 } := by
    simp [List.getElem?_set_self hdl]
  refine ⟨_, SetBuilder_eq hd (some b2), rfl, rfl, h1, h2, ?_⟩
  intro recipes
  have hother : ∀ b, b ≠ b2 →
      pending { m with
        products := m.products.set c2.product_
          { parts_ := p2 ++ (recipes.map Recipe.identifiers).flatten },
        directors := m.directors.set director { builder_ := some b2 } } b = pending m b := by
    intro b hb
    cases hc : m.builders[b]? with
    | none => simp [pending, hc]
    | some c =>
      have hcne : c2.product_ ≠ c.product_ := hsep.product_ne hc2 hc (Ne.symm hb)
      simp [pending, hc, partsAt, List.getElem?_set_ne hcne]
  have hq1 : partsAt { m with directors :=
                                m.directors.set director { builder_ := some b2 } }
      c2.product_ = some p2 := hq2
  refine ⟨_, callRecipes_eq recipes hd1 rfl (by simpa using hc2) hq1, ?_, ?_, ?_⟩
  · rw [← h1]
    exact hother b1 hne
  · simp [pending, hc2, partsAt, List.getElem?_set_self hlt2]
  · intro b hb
    exact hother b hb

/-- Witness of C10: two builders, the first with the pending part `"PartA1"` and bound to
the director, the second with no pending part. -/
theorem SetBuilder_rebinds_target_only_witness :
    ((Memory.mk [⟨["PartA1"]⟩, ⟨[]⟩] [⟨0⟩, ⟨1⟩] [⟨some 0⟩]).Separated ∧ (0 : Nat) ≠ 1 ∧
        (Memory.mk [⟨["PartA1"]⟩, ⟨[]⟩] [⟨0⟩, ⟨1⟩] [⟨some 0⟩]).directors[0]? =
          some { builder_ := some 0 } ∧
        pending (Memory.mk [⟨["PartA1"]⟩, ⟨[]⟩] [⟨0⟩, ⟨1⟩] [⟨some 0⟩]) 0 = some ["PartA1"] ∧
        pending (Memory.mk [⟨["PartA1"]⟩, ⟨[]⟩] [⟨0⟩, ⟨1⟩] [⟨some 0⟩]) 1 = some []) ∧
      ∃ m1,
        Director.SetBuilder (Memory.mk [⟨["PartA1"]⟩, ⟨[]⟩] [⟨0⟩, ⟨1⟩] [⟨some 0⟩]) 0
          (some 1) = some m1 ∧
        ∀ recipes, ∃ m2, callRecipes m1 0 recipes = some m2 ∧
          pending m2 0 = some ["PartA1"] ∧
          pending m2 1 = some ([] ++ (recipes.map Recipe.identifiers).flatten) :=
  ⟨⟨by decide, by decide, by decide, by decide, by decide⟩,
    match SetBuilder_rebinds_target_only
      (Memory.mk [⟨["PartA1"]⟩, ⟨[]⟩] [⟨0⟩, ⟨1⟩] [⟨some 0⟩]) 0 0 1 ["PartA1"] []
      (by decide) (by decide) (by decide) (by decide) (by decide) with
    | ⟨m1, g1, _, _, _, _, g6⟩ =>
      ⟨m1, g1, fun recipes =>
        match g6 recipes with
        | ⟨m2, k1, k2, k3, _⟩ => ⟨m2, k1, k2, k3⟩⟩⟩

/-- C5 fails on a product with a repeated identifier: after `ProducePartA` twice on a new
builder, `GetProduct` returns the part list `["PartA1", "PartA1"]`, for which `ListParts`
writes `"Product parts: PartA1PartA1"` and two line ends, with no separator between the
two elements, while the comma-separated rendering is `"Product parts: PartA1, PartA1"`
followed by two line ends. -/
theorem ListParts_drops_separator_before_repeated_last :
    ((ConcreteBuilder1.new Memory.empty).bind fun (m, builder) =>
        stepsThenGetProduct m builder [Step.ProducePartA, Step.ProducePartA]) =
        some ["PartA1", "PartA1"] ∧
      Product1.ListParts { parts_ := ["PartA1", "PartA1"] } "" =
        some "Product parts: PartA1PartA1\n\n" ∧
      commaSeparatedList ["PartA1", "PartA1"] = "Product parts: PartA1, PartA1\n\n" ∧
      Product1.ListParts { parts_ := ["PartA1", "PartA1"] } "" ≠
        some (commaSeparatedList ["PartA1", "PartA1"]) := by
  decide

end BuilderCpp

/-! ## Theorems: totality, recipes, adapters, mismatched variants, `ListParts` -/

namespace BuilderCpp

/-- C12: a recipe of the director only appends to the product of its builder. With the
director bound to a builder whose pending part list is `p`, `BuildMinimalViableProduct`
leaves the pending list `p ++ [id(A)]` and `BuildFullFraturedProduct` leaves
`p ++ [id(A), id(B), id(C)]`; neither changes any builder (the builder still points to the
same product: it was not reset) nor allocates a product (nothing was finalized). Hence
after the minimal and then the full recipe the next `GetProduct` returns
`p ++ ["PartA1", "PartA1", "PartB1", "PartC1"]`, four parts more than `p`. -/
theorem recipes_only_append (m : Memory) (director builder : Nat) (p : List String)
    (hd : m.directors[director]? = some { builder_ := some builder })
    (h : pending m builder = some p) :
    (∃ m1, Director.BuildMinimalViableProduct m director = some m1 ∧
        pending m1 builder = some (p ++ [Step.ProducePartA.identifier]) ∧
        m1.builders = m.builders ∧ m1.products.length = m.products.length ∧
        m1.directors = m.directors) ∧
      (∃ m1, Director.BuildFullFraturedProduct m director = some m1 ∧
        pending m1 builder = some (p ++ [Step.ProducePartA.identifier,
          Step.ProducePartB.identifier, Step.ProducePartC.identifier]) ∧
        m1.builders = m.builders ∧ m1.products.length = m.products.length ∧
        m1.directors = m.directors) ∧
      ∃ m1 m2 parts, Director.BuildMinimalViableProduct m director = some m1 ∧
        Director.BuildFullFraturedProduct m1 director = some m2 ∧
        stepsThenGetProduct m2 builder [] = some parts ∧
        parts = p ++ ["PartA1", "PartA1", "PartB1", "PartC1"] ∧
        parts.length = p.length + 4 := by
  obtain ⟨m1, g1, g2, g3, g4, g5⟩ :=
    Recipe_call_appends Recipe.BuildMinimalViableProduct hd h
  obtain ⟨n1, k1, k2, k3, k4, k5⟩ :=
    Recipe_call_appends Recipe.BuildFullFraturedProduct hd h
  obtain ⟨m2, j1, j2, _⟩ :=
    Recipe_call_appends Recipe.BuildFullFraturedProduct (by rw [g5]; exact hd) g2
  refine ⟨⟨m1, g1, g2, g3, g4, g5⟩, ⟨n1, k1, k2, k3, k4, k5⟩, m1, m2, _, g1, j1, ?_, rfl, ?_⟩
  · have := stepsThenGetProduct_eq [] j2
    simpa [Recipe.identifiers] using this
  · simp

/-- Witness of C12: the memory of `ClientCode` after `SetBuilder`, where the builder has no
pending part, so that the product after both recipes has four parts. -/
theorem recipes_only_append_witness :
    ((Memory.mk [⟨[]⟩] [⟨0⟩] [⟨some 0⟩]).directors[0]? = some { builder_ := some 0 } ∧
        pending (Memory.mk [⟨[]⟩] [⟨0⟩] [⟨some 0⟩]) 0 = some []) ∧
      ∃ m1 m2 parts,
        Director.BuildMinimalViableProduct (Memory.mk [⟨[]⟩] [⟨0⟩] [⟨some 0⟩]) 0 = some m1 ∧
        Director.BuildFullFraturedProduct m1 0 = some m2 ∧
        stepsThenGetProduct m2 0 [] = some parts ∧
        parts = [] ++ ["PartA1", "PartA1", "PartB1", "PartC1"] ∧
        parts.length = ([] : List String).length + 4 :=
  ⟨⟨by decide, by decide⟩,
    (recipes_only_append (Memory.mk [⟨[]⟩] [⟨0⟩] [⟨some 0⟩]) 0 0 []
      (by decide) (by decide)).2.2⟩

/-- C15: `ListParts` places separators by value. For every part list it completes (so
`back()` is never evaluated on an empty list) and writes `"Product parts: "`, then each
element in order, each followed by `", "` exactly when its string differs from the string
of the last element, then two line ends. The text is the comma-separated list if and only
if no element before the last position equals the last element: it is for
`["PartA1", "PartC1"]` and for the empty list, and it is not for
`["PartA1", "PartB1", "PartA1"]` nor for `["PartA1", "PartA1"]`. -/
theorem ListParts_separates_by_value :
    (∀ parts cout,
        Product1.ListParts { parts_ := parts } cout = some (cout ++ renderedByValue parts)) ∧
      (∀ parts cout,
        Product1.ListParts { parts_ := parts } cout =
            some (cout ++ commaSeparatedList parts) ↔
          ∀ x ∈ parts.dropLast, some x ≠ parts.getLast?) ∧
      (∀ cout, Product1.ListParts { parts_ := [] } cout =
        some (cout ++ "Product parts: \n\n")) ∧
      Product1.ListParts { parts_ := ["PartA1", "PartC1"] } "" =
        some (commaSeparatedList ["PartA1", "PartC1"]) ∧
      Product1.ListParts { parts_ := ["PartA1", "PartB1", "PartA1"] } "" =
        some "Product parts: PartA1PartB1, PartA1\n\n" ∧
      Product1.ListParts { parts_ := ["PartA1", "PartB1", "PartA1"] } "" ≠
        some (commaSeparatedList ["PartA1", "PartB1", "PartA1"]) ∧
      Product1.ListParts { parts_ := ["PartA1", "PartA1"] } "" ≠
        some (commaSeparatedList ["PartA1", "PartA1"]) := by
  refine ⟨ListParts_eq, ListParts_comma_iff, ?_, by decide, by decide, by decide, by decide⟩
  intro cout
  rw [ListParts_eq]
  rfl

end BuilderCpp

namespace AdapterCpp

/-- C13: the `Request()` of each adapter is its tag followed by the character-wise reversal
of `SpecificRequest()`: `"Adapter1: (TRANSLATED) Special behavior of the Adaptee."` and
`"Adapter2: (TRANSLATED) Special behavior of the Adaptee."`. Reversing the translated
payload (the text after the 23 characters of the tag) gives back `SpecificRequest()`.
`Request()` reverses a local copy: `SpecificRequest()` of the adaptee is the same text as
before, `".eetpadA eht fo roivaheb laicepS"`. -/
theorem adapters_translate_by_reversal (a1 : Adapter1) (a2 : Adapter2) :
    a1.Request = "Adapter1: (TRANSLATED) " ++ reverse ".eetpadA eht fo roivaheb laicepS" ∧
      a1.Request = "Adapter1: (TRANSLATED) Special behavior of the Adaptee." ∧
      a2.Request = "Adapter2: (TRANSLATED) " ++ reverse ".eetpadA eht fo roivaheb laicepS" ∧
      a2.Request = "Adapter2: (TRANSLATED) Special behavior of the Adaptee." ∧
      a1.Request = "Adapter1: (TRANSLATED) " ++ reverse a1.adaptee_.SpecificRequest ∧
      a2.Request = "Adapter2: (TRANSLATED) " ++ reverse a2.toAdaptee.SpecificRequest ∧
      reverse (String.mk (a1.Request.data.drop 23)) = a1.adaptee_.SpecificRequest ∧
      reverse (String.mk (a2.Request.data.drop 23)) = a2.toAdaptee.SpecificRequest ∧
      a1.adaptee_.SpecificRequest = ".eetpadA eht fo roivaheb laicepS" ∧
      a2.toAdaptee.SpecificRequest = ".eetpadA eht fo roivaheb laicepS" ∧
      ∀ s : String, reverse (reverse s) = s := by
  obtain ⟨⟨⟩⟩ := a1
  obtain ⟨⟨⟩⟩ := a2
  refine ⟨rfl, by decide, rfl, by decide, rfl, rfl, by decide, by decide, rfl, rfl,
    reverse_reverse⟩

end AdapterCpp

namespace AbstractFactoryCpp

/-- C14: the collaboration performs no variant check. For every variant `i` of product B
and every variant `j` of product A, equal or not, `AnotherUsefulFuntionB` returns exactly
`"The result of the B{i} collaborating with ( The result of the product A{j}. )"`: the
text of the B variant around the text that the collaborator returns from
`UsefulFuntionA()`, by the same rule for matched and mismatched pairs. Every product is the
product of one of the two factories. -/
theorem collaboration_ignores_variant_mismatch :
    (∀ f g : AbstractFactory,
        f.CreateProductB.AnotherUsefulFuntionB g.CreateProductA =
          "The result of the B" ++ variantDigit f ++
            " collaborating with ( The result of the product A" ++ variantDigit g ++ ". )") ∧
      (∀ (b : AbstrctProductB) (a : AbstrctProductA),
        ∃ f g : AbstractFactory, b = f.CreateProductB ∧ a = g.CreateProductA ∧
          b.AnotherUsefulFuntionB a =
            "The result of the B" ++ variantDigit f ++ " collaborating with ( " ++
              a.UsefulFuntionA ++ " )") ∧
      AbstrctProductB.ConcreteProductB1.AnotherUsefulFuntionB
          AbstrctProductA.ConcreteProductA1 =
        "The result of the B1 collaborating with ( The result of the product A1. )" ∧
      AbstrctProductB.ConcreteProductB1.AnotherUsefulFuntionB
          AbstrctProductA.ConcreteProductA2 =
        "The result of the B1 collaborating with ( The result of the product A2. )" ∧
      AbstrctProductB.ConcreteProductB2.AnotherUsefulFuntionB
          AbstrctProductA.ConcreteProductA1 =
        "The result of the B2 collaborating with ( The result of the product A1. )" ∧
      AbstrctProductB.ConcreteProductB2.AnotherUsefulFuntionB
          AbstrctProductA.ConcreteProductA2 =
        "The result of the B2 collaborating with ( The result of the product A2. )" := by
  refine ⟨?_, ?_, by decide, by decide, by decide, by decide⟩
  · intro f g
    cases f <;> cases g <;> decide
  · intro b a
    cases b <;> cases a
    · exact ⟨.ConcreteFactory1, .ConcreteFactory1, rfl, rfl, by decide⟩
    · exact ⟨.ConcreteFactory1, .ConcreteFactory2, rfl, rfl, by decide⟩
    · exact ⟨.ConcreteFactory2, .ConcreteFactory1, rfl, rfl, by decide⟩
    · exact ⟨.ConcreteFactory2, .ConcreteFactory2, rfl, rfl, by decide⟩

end AbstractFactoryCpp
